import Mathlib

/-!
Verification of the share-screen streaming pipeline against its specification.

The pipeline lives in `src/frame_compressor.rs`, `src/streamed_resolution.rs`
and `src/main.rs`.  Byte buffers (`Vec<u8>`) are modelled as `List Nat`,
machine `u32` arithmetic as natural-number arithmetic reduced modulo `2 ^ 32`
(release-build wrapping semantics of the `width * height * 4` products and of
the `len as u32` cast).  The JPEG encoder of the `image` crate is external to
the repository, so the compression stage is parameterized by the encoder's
outcome (`Except`): success yields the encoder's bytes, failure carries the
logged error.  The async receive loops of `main.rs::start_receiving` and
`streamed_resolution.rs::get_content` are modelled as functions over a finite
list of receive results (`some frame` = a delivered raw frame, `none` = the
channel reports closed), returning the list of packets produced together with
a flag telling whether the loop exited through its `break`.
-/

/-- Model of `par_chunks_exact(4)` on the input buffer
(`frame_compressor.rs` line 19): the consecutive exact 4-byte chunks of the
buffer, any remainder of fewer than 4 bytes is dropped. -/
def chunksOf4 : List Nat → List (List Nat)
  | b :: g :: r :: a :: rest => [b, g, r, a] :: chunksOf4 rest
  | _ => []

/-- Body of one iteration of the parallel conversion loop
(`frame_compressor.rs` lines 20-24): `rgb[0] = bgra[2]; rgb[1] = bgra[1];
rgb[2] = bgra[0]`. -/
def bgraToRgb (bgra : List Nat) : List Nat :=
  [bgra.getD 2 0, bgra.getD 1 0, bgra.getD 0 0]

/-- Concatenation of the per-chunk results, chunk index order.  Because each
parallel iteration writes only its own index-aligned 3-byte output chunk, the
data-parallel execution of the loop is extensionally this concatenation. -/
def zipConvert : List (List Nat) → List Nat
  | [] => []
  | c :: rest => bgraToRgb c ++ zipConvert rest

/-- Model of the conversion stage of `compress_frame`
(`frame_compressor.rs` lines 13-24): the output buffer is pre-allocated with
`rgbLen` zero bytes, then `rgb_data.par_chunks_exact_mut(3)` is zipped with
`raw_bgra.par_chunks_exact(4)`, so exactly `min (rgbLen / 3) (len / 4)` chunk
pairs are processed; output bytes beyond the processed chunks keep their
initial value 0. -/
def convertChunked (raw_bgra : List Nat) (rgbLen : Nat) : List Nat :=
  let pairs := min (rgbLen / 3) (raw_bgra.length / 4)
  zipConvert ((chunksOf4 raw_bgra).take pairs) ++ List.replicate (rgbLen - 3 * pairs) 0

/-- The Pixel Converter: the length-validation and conversion stage of
`compress_frame` (`frame_compressor.rs` lines 7-24).  `none` models the early
`return Vec::new()` taken when `raw_bgra.len() != expected_len` (lines 8-10);
`some` models reaching the conversion with the allocated `rgb_data` buffer
(lines 13-24).  `width` and `height` are `u32`, so both products are reduced
modulo `2 ^ 32`. -/
def pixel_convert (raw_bgra : List Nat) (width height : Nat) : Option (List Nat) :=
  let expected_len := width * height * 4 % 2 ^ 32
  if raw_bgra.length = expected_len then
    some (convertChunked raw_bgra (width * height * 3 % 2 ^ 32))
  else
    none

/-- Outcome of the external JPEG encoder (`JpegEncoder::write_image` of the
`image` crate, not part of this repository): either the compressed bytes it
wrote, or the error it returned. -/
abbrev Encoder : Type := List Nat → Nat → Nat → Except String (List Nat)

/-- Model of `compress_frame` (`frame_compressor.rs` lines 4-39, duplicated in
`streamed_resolution.rs` lines 72-106).  First component: the returned buffer
(`compressed` on success, `Vec::new()` on length mismatch or encoder error).
Second component: the lines printed to stderr (line 33 logs the encoder
error); the function has no other error channel, it always returns normally. -/
def compress_frame (enc : Encoder) (raw_bgra : List Nat) (width height : Nat) :
    List Nat × List String :=
  match pixel_convert raw_bgra width height with
  | none => ([], [])
  | some rgb_data =>
    match enc rgb_data width height with
    | Except.ok compressed => (compressed, [])
    | Except.error e => ([], ["JPEG Encoding error: " ++ e])

/-- Little-endian byte encoding of a `u32` value (`len.to_le_bytes()`,
`main.rs` line 171). -/
def u32le (n : Nat) : List Nat :=
  [n % 2 ^ 8, n / 2 ^ 8 % 2 ^ 8, n / 2 ^ 16 % 2 ^ 8, n / 2 ^ 24 % 2 ^ 8]

/-- The Packet built by the Packetizer (`main.rs` lines 167-172, duplicated in
`streamed_resolution.rs` lines 54-59): 4 length bytes (`compressed.len() as
u32`, little endian — the cast truncates modulo `2 ^ 32`) followed by the
compressed bytes verbatim. -/
def packet (compressed : List Nat) : List Nat :=
  u32le (compressed.length % 2 ^ 32) ++ compressed

/-- The Packetizer including its emptiness guard (`main.rs` lines 166-176):
an empty CompressedFrame produces no Packet at all. -/
def packetize (compressed : List Nat) : Option (List Nat) :=
  if compressed.isEmpty then none else some (packet compressed)

/-- Little-endian `u32` decoding of the first 4 bytes of a buffer, as the wire
format prescribes for consumers (spec section 6). -/
def decodeLE32 (bytes : List Nat) : Nat :=
  bytes.getD 0 0 + 2 ^ 8 * bytes.getD 1 0 + 2 ^ 16 * bytes.getD 2 0 + 2 ^ 24 * bytes.getD 3 0

/-- Model of the Compression Stage loop of `start_receiving`
(`main.rs` lines 146-178) run against a finite list of receive results:
`none` is `rx.recv()` reporting the channel closed (the loop breaks, line
153-155), `some raw_data` is a delivered raw frame, which is compressed and,
when the compressed buffer is non-empty, packetized and published (lines
166-176).  Result: the list of packets published to the broadcast sender, in
publication order, and `true` iff the loop exited through its `break`. -/
def start_receiving (enc : Encoder) (width height : Nat) :
    List (Option (List Nat)) → List (List Nat) × Bool
  | [] => ([], false)
  | none :: _ => ([], true)
  | some raw_data :: rest =>
    let compressed := (compress_frame enc raw_data width height).1
    let r := start_receiving enc width height rest
    if compressed.isEmpty then r else (packet compressed :: r.1, r.2)

/-- Model of the Per-Consumer Stream Adapter loop of
`StreamedResolution::get_content` (`streamed_resolution.rs` lines 35-64): the
receive result type it consumes is `Option<Vec<u8>>` (an mpsc receive), `none`
breaks the loop, `some` data is compressed and, when non-empty, framed and
yielded.  Result: the yielded packets and `true` iff the stream ended through
the `break`. -/
def get_content (enc : Encoder) (width height : Nat) :
    List (Option (List Nat)) → List (List Nat) × Bool
  | [] => ([], false)
  | none :: _ => ([], true)
  | some raw_data :: rest =>
    let compressed := (compress_frame enc raw_data width height).1
    let r := get_content enc width height rest
    if compressed.isEmpty then r else (packet compressed :: r.1, r.2)

/-- Naive sequential per-pixel reference conversion, following the spec's
words (section 4.1): for every pixel index i, output bytes
`[i*3 .. i*3+3)` are `[input[i*4+2], input[i*4+1], input[i*4+0]]`. -/
def convertSeq : List Nat → List Nat
  | b :: g :: r :: _ :: rest => r :: g :: b :: convertSeq rest
  | _ => []

/-- The exact 4-byte chunking produces `len / 4` chunks. -/
theorem chunksOf4_length (l : List Nat) : (chunksOf4 l).length = l.length / 4 := by
  induction l using chunksOf4.induct with
  | case1 b g r a rest ih => simp [chunksOf4, ih]; omega
  | case2 l h =>
    match l, h with
    | [], _ => simp [chunksOf4]
    | [a], _ => simp [chunksOf4]
    | [a, b], _ => simp [chunksOf4]
    | [a, b, c], _ => simp [chunksOf4]
    | a :: b :: c :: d :: t, h => exact absurd rfl (h a b c d t)

/-- Each processed chunk contributes exactly 3 output bytes. -/
theorem zipConvert_length (cs : List (List Nat)) : (zipConvert cs).length = 3 * cs.length := by
  induction cs with
  | nil => simp [zipConvert]
  | cons c rest ih => simp [zipConvert, bgraToRgb, ih]; omega

/-- The sequential reference consumes 4 input bytes per pixel and emits 3. -/
theorem convertSeq_length (l : List Nat) : (convertSeq l).length = 3 * (l.length / 4) := by
  induction l using convertSeq.induct with
  | case1 b g r a rest ih => simp [convertSeq, ih]; omega
  | case2 l h =>
    match l, h with
    | [], _ => simp [convertSeq]
    | [a], _ => simp [convertSeq]
    | [a, b], _ => simp [convertSeq]
    | [a, b, c], _ => simp [convertSeq]
    | a :: b :: c :: d :: t, h => exact absurd rfl (h a b c d t)

/-- Converting all exact chunks in index order is the sequential reference. -/
theorem zipConvert_chunksOf4 (l : List Nat) : zipConvert (chunksOf4 l) = convertSeq l := by
  induction l using chunksOf4.induct with
  | case1 b g r a rest ih => simp [chunksOf4, zipConvert, bgraToRgb, convertSeq, ih]
  | case2 l h =>
    match l, h with
    | [], _ => simp [chunksOf4, zipConvert, convertSeq]
    | [a], _ => simp [chunksOf4, zipConvert, convertSeq]
    | [a, b], _ => simp [chunksOf4, zipConvert, convertSeq]
    | [a, b, c], _ => simp [chunksOf4, zipConvert, convertSeq]
    | a :: b :: c :: d :: t, h => exact absurd rfl (h a b c d t)

/-- The conversion stage always fills exactly the allocated output length. -/
theorem convertChunked_length (raw_bgra : List Nat) (rgbLen : Nat) :
    (convertChunked raw_bgra rgbLen).length = rgbLen := by
  unfold convertChunked
  simp [zipConvert_length, chunksOf4_length]
  omega

/-- When the buffers have the exact sizes of `n` pixels, the chunked conversion
processes every pixel and equals the sequential reference. -/
theorem convertChunked_eq_convertSeq (raw_bgra : List Nat) (n : Nat)
    (hlen : raw_bgra.length = 4 * n) :
    convertChunked raw_bgra (3 * n) = convertSeq raw_bgra := by
  unfold convertChunked
  have h3 : 3 * n / 3 = n := by omega
  have h4 : raw_bgra.length / 4 = n := by omega
  have hchunks : (chunksOf4 raw_bgra).length = n := by rw [chunksOf4_length, h4]
  simp only [h3, h4, min_self]
  rw [List.take_of_length_le (le_of_eq hchunks), zipConvert_chunksOf4]
  simp

/-- Per-pixel characterization of the sequential reference conversion. -/
theorem convertSeq_getD (i : Nat) : ∀ (l : List Nat), 4 * i + 4 ≤ l.length →
    (convertSeq l).getD (3 * i) 0 = l.getD (4 * i + 2) 0 ∧
    (convertSeq l).getD (3 * i + 1) 0 = l.getD (4 * i + 1) 0 ∧
    (convertSeq l).getD (3 * i + 2) 0 = l.getD (4 * i) 0 := by
  induction i with
  | zero =>
    intro l hl
    match l, hl with
    | b :: g :: r :: a :: rest, _ => simp [convertSeq]
    | [], hl => simp at hl
    | [b], hl => simp at hl
    | [b, g], hl => simp at hl
    | [b, g, r], hl => simp at hl
  | succ i ih =>
    intro l hl
    match l, hl with
    | [], hl => simp at hl
    | [b], hl => simp at hl
    | [b, g], hl => simp at hl
    | [b, g, r], hl => simp at hl
    | b :: g :: r :: a :: rest, hl =>
      have hrest : 4 * i + 4 ≤ rest.length := by
        simp at hl
        omega
      obtain ⟨e1, e2, e3⟩ := ih rest hrest
      have h30 : 3 * (i + 1) = 3 * i + 1 + 1 + 1 := by ring
      have h31 : 3 * (i + 1) + 1 = 3 * i + 1 + 1 + 1 + 1 := by ring
      have h32 : 3 * (i + 1) + 2 = 3 * i + 2 + 1 + 1 + 1 := by ring
      have h42 : 4 * (i + 1) + 2 = 4 * i + 2 + 1 + 1 + 1 + 1 := by ring
      have h41 : 4 * (i + 1) + 1 = 4 * i + 1 + 1 + 1 + 1 + 1 := by ring
      have h40 : 4 * (i + 1) = 4 * i + 1 + 1 + 1 + 1 := by ring
      refine ⟨?_, ?_, ?_⟩
      · rw [h30, h42]
        simpa [convertSeq, List.getD_cons_succ] using e1
      · rw [h31, h41]
        simpa [convertSeq, List.getD_cons_succ] using e2
      · rw [h32, h40]
        simpa [convertSeq, List.getD_cons_succ] using e3

/-- C1 (corrected: the length validation is done in wrapping `u32` arithmetic,
so the exact-product reading needs `w * h * 4 < 2 ^ 32`): for dimensions whose
byte count stays below `2 ^ 32`, an input of length exactly `w * h * 4` passes
validation and the converter produces a buffer of length exactly `w * h * 3`
with `out[3i] = in[4i+2]`, `out[3i+1] = in[4i+1]`, `out[3i+2] = in[4i]` for
every pixel index `i`, dropping the alpha byte. -/
theorem pixel_converter_correct (width height : Nat) (raw_bgra : List Nat)
    (hbound : width * height * 4 < 2 ^ 32)
    (hlen : raw_bgra.length = width * height * 4) :
    ∃ out, pixel_convert raw_bgra width height = some out ∧
      out.length = width * height * 3 ∧
      ∀ i < width * height,
        out.getD (3 * i) 0 = raw_bgra.getD (4 * i + 2) 0 ∧
        out.getD (3 * i + 1) 0 = raw_bgra.getD (4 * i + 1) 0 ∧
        out.getD (3 * i + 2) 0 = raw_bgra.getD (4 * i) 0 := by
  have hb3 : width * height * 3 < 2 ^ 32 := by omega
  have hmod4 : width * height * 4 % 2 ^ 32 = width * height * 4 := Nat.mod_eq_of_lt hbound
  have hmod3 : width * height * 3 % 2 ^ 32 = width * height * 3 := Nat.mod_eq_of_lt hb3
  have hceq : convertChunked raw_bgra (width * height * 3) = convertSeq raw_bgra := by
    have h1 : width * height * 3 = 3 * (width * height) := by ring
    have h2 : raw_bgra.length = 4 * (width * height) := by rw [hlen]; ring
    rw [h1]
    exact convertChunked_eq_convertSeq _ _ h2
  refine ⟨convertSeq raw_bgra, ?_, ?_, ?_⟩
  · simp only [pixel_convert]
    rw [hmod4, hmod3, if_pos hlen, hceq]
  · rw [convertSeq_length, hlen]
    omega
  · intro i hi
    apply convertSeq_getD
    rw [hlen]
    omega

/-- Witness for C1 at one 1-by-1 BGRA frame. -/
theorem pixel_converter_correct_witness :
    ∃ out, pixel_convert [9, 8, 7, 6] 1 1 = some out ∧
      out.length = 1 * 1 * 3 ∧
      ∀ i < 1 * 1,
        out.getD (3 * i) 0 = [9, 8, 7, 6].getD (4 * i + 2) 0 ∧
        out.getD (3 * i + 1) 0 = [9, 8, 7, 6].getD (4 * i + 1) 0 ∧
        out.getD (3 * i + 2) 0 = [9, 8, 7, 6].getD (4 * i) 0 :=
  pixel_converter_correct 1 1 [9, 8, 7, 6] (by norm_num) (by norm_num)

/-- Counterexample to C1 as stated: at width = height = 2 ^ 16 the product
`w * h * 4 = 2 ^ 34` wraps to 0 in `u32`, so a buffer of length exactly
`w * h * 4` fails the validation and no output buffer is produced at all. -/
theorem pixel_converter_exact_length_counterexample :
    (List.replicate (2 ^ 34) (0 : Nat)).length = 2 ^ 16 * 2 ^ 16 * 4 ∧
    pixel_convert (List.replicate (2 ^ 34) 0) (2 ^ 16) (2 ^ 16) = none := by
  constructor
  · rw [List.length_replicate]
    norm_num
  · have hne : (List.replicate (2 ^ 34) (0 : Nat)).length ≠ 2 ^ 16 * 2 ^ 16 * 4 % 2 ^ 32 := by
      rw [List.length_replicate]
      decide
    simp only [pixel_convert, if_neg hne]

/-- C9 (corrected: for dimensions whose byte counts overflow `u32`, the output
buffer is allocated with the wrapped size and the two conversions differ, so
the equivalence needs `w * h * 4 < 2 ^ 32`): on every input of length exactly
`w * h * 4`, the chunked data-parallel conversion with the allocated output
size computes exactly the naive sequential per-pixel reference; in particular
the parallel implementation is deterministic. -/
theorem chunked_refines_sequential (width height : Nat) (raw_bgra : List Nat)
    (hbound : width * height * 4 < 2 ^ 32)
    (hlen : raw_bgra.length = width * height * 4) :
    convertChunked raw_bgra (width * height * 3 % 2 ^ 32) = convertSeq raw_bgra := by
  have hb3 : width * height * 3 < 2 ^ 32 := by omega
  rw [Nat.mod_eq_of_lt hb3]
  have h1 : width * height * 3 = 3 * (width * height) := by ring
  have h2 : raw_bgra.length = 4 * (width * height) := by rw [hlen]; ring
  rw [h1]
  exact convertChunked_eq_convertSeq _ _ h2

/-- Witness for C9 at one 1-by-1 BGRA frame. -/
theorem chunked_refines_sequential_witness :
    convertChunked [9, 8, 7, 6] (1 * 1 * 3 % 2 ^ 32) = convertSeq [9, 8, 7, 6] :=
  chunked_refines_sequential 1 1 [9, 8, 7, 6] (by norm_num) (by norm_num)

/-- The sequential reference on an all-zero buffer of `k` pixels. -/
theorem convertSeq_replicate_zero (k : Nat) :
    convertSeq (List.replicate (4 * k) (0 : Nat)) = List.replicate (3 * k) 0 := by
  induction k with
  | zero => simp [convertSeq]
  | succ k ih =>
    have h4 : 4 * (k + 1) = 4 + 4 * k := by ring
    have h3 : 3 * (k + 1) = 3 + 3 * k := by ring
    rw [h4, h3, List.replicate_add, List.replicate_add]
    rw [show List.replicate 4 (0 : Nat) = [0, 0, 0, 0] from rfl,
      show List.replicate 3 (0 : Nat) = [0, 0, 0] from rfl]
    simp [convertSeq, ih]

/-- Counterexample to C9 as stated: at width = height = 2 ^ 16 the allocated
output size wraps to 0, the chunked conversion returns the empty buffer, and
the sequential reference returns `3 * 2 ^ 32` bytes. -/
theorem chunked_vs_sequential_counterexample :
    (List.replicate (2 ^ 16 * 2 ^ 16 * 4) (0 : Nat)).length = 2 ^ 16 * 2 ^ 16 * 4 ∧
    convertChunked (List.replicate (2 ^ 16 * 2 ^ 16 * 4) 0) (2 ^ 16 * 2 ^ 16 * 3 % 2 ^ 32)
      ≠ convertSeq (List.replicate (2 ^ 16 * 2 ^ 16 * 4) 0) := by
  refine ⟨List.length_replicate _ _, ?_⟩
  intro hEq
  have hrgb : 2 ^ 16 * 2 ^ 16 * 3 % 2 ^ 32 = 0 := by decide
  have hzero : convertChunked (List.replicate (2 ^ 16 * 2 ^ 16 * 4) (0 : Nat)) 0 = [] := by
    simp only [convertChunked, Nat.zero_div, Nat.zero_min, List.take_zero]
    rfl
  have hR : convertSeq (List.replicate (2 ^ 16 * 2 ^ 16 * 4) (0 : Nat)) =
      List.replicate (3 * 2 ^ 32) 0 := by
    rw [show 2 ^ 16 * 2 ^ 16 * 4 = 4 * 2 ^ 32 by norm_num, convertSeq_replicate_zero]
  rw [hrgb, hzero, hR] at hEq
  have hlen := congrArg List.length hEq
  rw [List.length_nil, List.length_replicate] at hlen
  exact absurd hlen (by norm_num)

/-- C10 (confirmed): the expected-length check and the output allocation of
the Pixel Converter are computed in `u32` arithmetic, i.e. modulo `2 ^ 32`:
whenever `w * h * 4` is at least `2 ^ 32`, a buffer whose length is the
wrapped value `(w * h * 4) mod 2 ^ 32` passes validation, and the produced
buffer has the wrapped length `(w * h * 3) mod 2 ^ 32`, rather than the exact
mathematical products being used. -/
theorem validation_uses_u32_arithmetic (width height : Nat) (raw_bgra : List Nat)
    (hover : 2 ^ 32 ≤ width * height * 4)
    (hlen : raw_bgra.length = width * height * 4 % 2 ^ 32) :
    ∃ out, pixel_convert raw_bgra width height = some out ∧
      out.length = width * height * 3 % 2 ^ 32 := by
  refine ⟨convertChunked raw_bgra (width * height * 3 % 2 ^ 32), ?_, convertChunked_length _ _⟩
  simp only [pixel_convert, if_pos hlen]

/-- Witness for C10: width = height = 2 ^ 16 overflows, and the empty buffer
passes the wrapped validation. -/
theorem validation_uses_u32_arithmetic_witness :
    ∃ out, pixel_convert [] (2 ^ 16) (2 ^ 16) = some out ∧
      out.length = 2 ^ 16 * 2 ^ 16 * 3 % 2 ^ 32 :=
  validation_uses_u32_arithmetic (2 ^ 16) (2 ^ 16) [] (by norm_num) (by decide)

/-- Little-endian decoding inverts the little-endian encoding below `2 ^ 32`. -/
theorem decodeLE32_u32le (n : Nat) (h : n < 2 ^ 32) : decodeLE32 (u32le n) = n := by
  simp only [decodeLE32, u32le, List.getD_cons_zero, List.getD_cons_succ]
  omega

/-- C2 (corrected: the length field is the payload length cast to `u32`, which
truncates, so the round-trip needs `len(C) < 2 ^ 32`): for every non-empty
CompressedFrame below `2 ^ 32` bytes, the Packetizer produces a Packet of
length `4 + len(C)` whose first 4 bytes decode little-endian to exactly
`len(C)` and whose remaining bytes equal `C`; the length field counts only the
payload. -/
theorem packetizer_round_trip (c : List Nat) (h1 : c ≠ []) (h2 : c.length < 2 ^ 32) :
    packetize c = some (packet c) ∧
    (packet c).length = 4 + c.length ∧
    decodeLE32 ((packet c).take 4) = c.length ∧
    (packet c).drop 4 = c := by
  have hmod : c.length % 2 ^ 32 = c.length := Nat.mod_eq_of_lt h2
  have hu32len : (u32le (c.length % 2 ^ 32)).length = 4 := rfl
  refine ⟨?_, ?_, ?_, ?_⟩
  · simp [packetize, List.isEmpty_iff, h1]
  · simp only [packet, List.length_append, hu32len]
  · simp only [packet]
    rw [List.take_left' hu32len, hmod]
    exact decodeLE32_u32le _ h2
  · simp only [packet]
    exact List.drop_left' hu32len

/-- Witness for C2 at the one-byte CompressedFrame `[7]`. -/
theorem packetizer_round_trip_witness :
    packetize [7] = some (packet [7]) ∧
    (packet [7]).length = 4 + [7].length ∧
    decodeLE32 ((packet [7]).take 4) = [7].length ∧
    (packet [7]).drop 4 = [7] :=
  packetizer_round_trip [7] (by decide) (by decide)

/-- Counterexample to C2 as stated: a non-empty CompressedFrame of exactly
`2 ^ 32` bytes gets the wrapped length field 0, which does not decode to its
length. -/
theorem packetizer_truncation_counterexample :
    List.replicate (2 ^ 32) (0 : Nat) ≠ [] ∧
    decodeLE32 ((packet (List.replicate (2 ^ 32) 0)).take 4) ≠
      (List.replicate (2 ^ 32) (0 : Nat)).length := by
  constructor
  · intro h
    have hlen := congrArg List.length h
    rw [List.length_replicate, List.length_nil] at hlen
    exact absurd hlen (by norm_num)
  · have hlen4 : (u32le ((List.replicate (2 ^ 32) (0 : Nat)).length % 2 ^ 32)).length = 4 := rfl
    simp only [packet]
    rw [List.take_left' hlen4, List.length_replicate, Nat.mod_self]
    decide

/-- C4 (corrected: the expected length the code validates against is
`(w * h * 4) mod 2 ^ 32`, not the exact product): for every input buffer whose
length differs from the wrapped expected length, the Pixel Converter signals
failure (no converted buffer), `compress_frame` returns the empty buffer with
nothing logged, and the receive loop emits no packet for this frame and
continues with the next one. -/
theorem length_mismatch_drops_frame (enc : Encoder) (raw_bgra : List Nat)
    (width height : Nat) (rest : List (Option (List Nat)))
    (hlen : raw_bgra.length ≠ width * height * 4 % 2 ^ 32) :
    pixel_convert raw_bgra width height = none ∧
    compress_frame enc raw_bgra width height = ([], []) ∧
    start_receiving enc width height (some raw_bgra :: rest) =
      start_receiving enc width height rest := by
  have hpc : pixel_convert raw_bgra width height = none := by
    simp only [pixel_convert, if_neg hlen]
  have hcf : compress_frame enc raw_bgra width height = ([], []) := by
    simp only [compress_frame, hpc]
  refine ⟨hpc, hcf, ?_⟩
  simp only [start_receiving, hcf]
  simp

/-- Witness for C4 at a 3-byte buffer for a 1-by-1 frame. -/
theorem length_mismatch_drops_frame_witness :
    pixel_convert [1, 2, 3] 1 1 = none ∧
    compress_frame (fun _ _ _ => Except.ok [1]) [1, 2, 3] 1 1 = ([], []) ∧
    start_receiving (fun _ _ _ => Except.ok [1]) 1 1 (some [1, 2, 3] :: []) =
      start_receiving (fun _ _ _ => Except.ok [1]) 1 1 [] :=
  length_mismatch_drops_frame _ [1, 2, 3] 1 1 [] (by decide)

/-- Counterexample to C4 as stated: at width = height = 2 ^ 16 the expected
length wraps to 0, so the empty buffer — whose length is not the mathematical
`w * h * 4` — passes validation and the converter does not signal failure. -/
theorem length_mismatch_wrap_counterexample :
    ([] : List Nat).length ≠ 2 ^ 16 * 2 ^ 16 * 4 ∧
    pixel_convert [] (2 ^ 16) (2 ^ 16) = some [] := by
  decide

/-- C5 (confirmed): an empty CompressedFrame produces no Packet and nothing is
published for that frame: the receive loop's published sequence with the frame
equals the one without it. -/
theorem empty_frame_produces_no_packet (enc : Encoder) (width height : Nat)
    (raw_bgra : List Nat) (rest : List (Option (List Nat)))
    (hempty : (compress_frame enc raw_bgra width height).1 = []) :
    packetize (compress_frame enc raw_bgra width height).1 = none ∧
    start_receiving enc width height (some raw_bgra :: rest) =
      start_receiving enc width height rest := by
  constructor
  · rw [hempty]
    rfl
  · simp only [start_receiving, hempty]
    simp

/-- Witness for C5: a frame whose compression fails yields no packet and
leaves the published sequence unchanged. -/
theorem empty_frame_produces_no_packet_witness :
    packetize (compress_frame (fun _ _ _ => Except.error "e") [1, 2, 3] 1 1).1 = none ∧
    start_receiving (fun _ _ _ => Except.error "e") 1 1 (some [1, 2, 3] :: []) =
      start_receiving (fun _ _ _ => Except.error "e") 1 1 [] :=
  empty_frame_produces_no_packet _ 1 1 [1, 2, 3] [] rfl

/-- C6 (confirmed): when the internal encoder fails on a frame,
`compress_frame` returns the empty buffer and logs the cause to stderr; no
error is propagated (the function returns normally) and the receive loop
continues with subsequent frames, publishing nothing for this one. -/
theorem encoder_failure_drops_frame (enc : Encoder) (raw_bgra : List Nat)
    (width height : Nat) (e : String) (rest : List (Option (List Nat)))
    (hlen : raw_bgra.length = width * height * 4 % 2 ^ 32)
    (henc : enc (convertChunked raw_bgra (width * height * 3 % 2 ^ 32)) width height =
      Except.error e) :
    compress_frame enc raw_bgra width height = ([], ["JPEG Encoding error: " ++ e]) ∧
    start_receiving enc width height (some raw_bgra :: rest) =
      start_receiving enc width height rest := by
  have hcf : compress_frame enc raw_bgra width height =
      ([], ["JPEG Encoding error: " ++ e]) := by
    simp only [compress_frame, pixel_convert, if_pos hlen, henc]
  refine ⟨hcf, ?_⟩
  simp only [start_receiving, hcf]
  simp

/-- Witness for C6 at a 1-by-1 frame whose encoding fails. -/
theorem encoder_failure_drops_frame_witness :
    compress_frame (fun _ _ _ => Except.error "boom") [1, 2, 3, 4] 1 1 =
      ([], ["JPEG Encoding error: " ++ "boom"]) ∧
    start_receiving (fun _ _ _ => Except.error "boom") 1 1 (some [1, 2, 3, 4] :: []) =
      start_receiving (fun _ _ _ => Except.error "boom") 1 1 [] :=
  encoder_failure_drops_frame _ [1, 2, 3, 4] 1 1 "boom" [] (by decide) rfl

/-- C7 (confirmed): the Compression Stage loop exits through its `break`
exactly when some receive result reports the channel closed; while the
hand-off only yields frames the loop never terminates.  The exit is a plain
return of the accumulated result, not an error. -/
theorem compression_loop_ends_iff_closed (enc : Encoder) (width height : Nat)
    (evs : List (Option (List Nat))) :
    (start_receiving enc width height evs).2 = true ↔ none ∈ evs := by
  induction evs with
  | nil => simp [start_receiving]
  | cons ev rest ih =>
    cases ev with
    | none => simp [start_receiving]
    | some raw_bgra =>
      simp only [start_receiving]
      by_cases hc : ((compress_frame enc raw_bgra width height).1).isEmpty
      · simp [hc, ih]
      · simp [hc, ih]

/-- C3 (code bug): the Stream Adapter loop of `get_content` consumes `Option`
receive results of an mpsc receiver; its event alphabet has no lag indicator
at all, and the only non-item result ends the stream — evaluated on the single
non-item signal its type can express, the adapter terminates immediately
rather than retrying.  Meanwhile `main.rs` line 118 hands the adapter a
broadcast subscription, whose lagged receive result the adapter never
handles. -/
theorem stream_adapter_breaks_on_non_item :
    get_content (fun _ _ _ => Except.ok [1]) 1 1 [none] = ([], true) := rfl

/-- Modelled from the spec: the Broadcast Distributor itself is the external
`tokio::sync::broadcast` channel created at `main.rs` line 40, not code of
this repository.  Following spec section 4.5, its state is the full
publication history together with the bounded backlog capacity. -/
structure Broadcast where
  history : List (List Nat)
  capacity : Nat

/-- Modelled from the spec: publishing appends one Packet to the history;
the publisher never blocks on subscribers (section 4.5). -/
def publish (b : Broadcast) (p : List Nat) : Broadcast :=
  { history := b.history ++ [p], capacity := b.capacity }

/-- Modelled from the spec: publishing a sequence of Packets in order
(the Compression Stage publishing one Packet per frame). -/
def publishAll : Broadcast → List (List Nat) → Broadcast
  | b, [] => b
  | b, p :: rest => publishAll (publish b p) rest

/-- Modelled from the spec: a Subscription observes the stream starting from
the moment of subscription, with no replay of history (section 3); the handle
is the index of the next packet to deliver. -/
def subscribe (b : Broadcast) : Nat :=
  b.history.length

/-- Modelled from the spec: the outcome of one receive operation on a
Subscription — the next Packet with the advanced handle, the lag indicator
with the resynchronized handle, or the end of the stream. -/
inductive RecvResult where
  | item : List Nat → Nat → RecvResult
  | lagged : Nat → RecvResult
  | closed : RecvResult

/-- Modelled from the spec: one receive on the Distributor (section 4.5): a
subscriber that has fallen more than `capacity` behind gets the lag indicator
and resynchronizes at the oldest retained Packet; otherwise the next Packet is
delivered in publication order; a caught-up subscriber observes the end of the
stream once the publisher is closed. -/
def recv (b : Broadcast) (s : Nat) : RecvResult :=
  if s + b.capacity < b.history.length then
    RecvResult.lagged (b.history.length - b.capacity)
  else if hs : s < b.history.length then
    RecvResult.item (b.history.get ⟨s, hs⟩) (s + 1)
  else
    RecvResult.closed

/-- Modelled from the spec: a consumer draining its Subscription under the
Stream Adapter policy of section 4.6 (retry on the lag indicator), for `fuel`
receive operations. -/
def drainFuel (b : Broadcast) : Nat → Nat → List (List Nat)
  | 0, _ => []
  | fuel + 1, s =>
    match recv b s with
    | RecvResult.item p s2 => p :: drainFuel b fuel s2
    | RecvResult.lagged s2 => drainFuel b fuel s2
    | RecvResult.closed => []

/-- The backlog capacity configured at `main.rs` line 40. -/
def BACKLOG_CAPACITY : Nat := 100

/-- Publishing a sequence appends it to the history and keeps the capacity. -/
theorem publishAll_eq (ps : List (List Nat)) : ∀ b : Broadcast,
    publishAll b ps = ⟨b.history ++ ps, b.capacity⟩ := by
  induction ps with
  | nil =>
    intro b
    simp [publishAll]
  | cons p rest ih =>
    intro b
    rw [publishAll, ih]
    simp [publish]

/-- A subscriber positioned at the start of a suffix of at most `capacity`
packets drains exactly that suffix, in order, without lagging. -/
theorem drainFuel_suffix (ps : List (List Nat)) : ∀ (H : List (List Nat)) (cap : Nat),
    ps.length ≤ cap →
    drainFuel ⟨H ++ ps, cap⟩ ps.length H.length = ps := by
  induction ps with
  | nil =>
    intro H cap h
    rfl
  | cons p rest ih =>
    intro H cap h
    have hc1 : ¬ (H.length + cap < (H ++ p :: rest).length) := by
      simp only [List.length_append, List.length_cons]
      simp only [List.length_cons] at h
      omega
    have hc2 : H.length < (H ++ p :: rest).length := by
      simp only [List.length_append, List.length_cons]
      omega
    have hget : (H ++ p :: rest).get ⟨H.length, hc2⟩ = p := by
      rw [List.get_eq_getElem, List.getElem_append_right (le_refl H.length)]
      simp
    have hrecv : recv ⟨H ++ p :: rest, cap⟩ H.length = RecvResult.item p (H.length + 1) := by
      simp only [recv]
      rw [if_neg hc1, dif_pos hc2, hget]
    simp only [List.length_cons, drainFuel, hrecv]
    have hhist : H ++ p :: rest = (H ++ [p]) ++ rest := by simp
    have hpos : H.length + 1 = (H ++ [p]).length := by simp
    rw [hhist, hpos]
    have hrest : rest.length ≤ cap := by
      simp only [List.length_cons] at h
      omega
    rw [ih (H ++ [p]) cap hrest]

/-- C8 (confirmed against the spec-modelled Distributor): every Subscription
created before publication begins — its handle is `subscribe b0` — observes a
published sequence of `N ≤ capacity` Packets in full, each exactly once, in
publication order; any two such Subscriptions therefore observe identical
sequences. -/
theorem broadcast_fanout_ordering (b0 : Broadcast) (ps : List (List Nat))
    (hN : ps.length ≤ b0.capacity) :
    drainFuel (publishAll b0 ps) ps.length (subscribe b0) = ps := by
  rw [publishAll_eq, subscribe]
  exact drainFuel_suffix ps b0.history b0.capacity hN

/-- Witness for C8: two packets published through an empty channel of the
configured capacity are both received, in order. -/
theorem broadcast_fanout_ordering_witness :
    drainFuel (publishAll ⟨[], BACKLOG_CAPACITY⟩ [[1], [2]]) [[1], [2]].length
      (subscribe ⟨[], BACKLOG_CAPACITY⟩) = [[1], [2]] :=
  broadcast_fanout_ordering ⟨[], BACKLOG_CAPACITY⟩ [[1], [2]] (by decide)
